import Mathlib

/-!
Verification of the embedmd directive scanner, command parser and extractor.

The development models the Go sources of the embedmd tool: documents are
byte strings (modelled as `List Char`), split into lines exactly the way
`bufio.Scanner` with `bufio.ScanLines` does (dropping one trailing CR before
each LF), and processed by the single-pass state machine made of
`parsingText`, `parsingCmd` and `codeParser.parse`.  Regular-expression
matching (Go `regexp.Compile` / `FindIndex`) and content fetching
(`readContents`) are external collaborators, modelled as parameters.
-/

namespace EmbedMD

/-- Whitespace test matching the ASCII cases of Go `unicode.IsSpace`,
used by `strings.TrimSpace`. -/
def goIsSpace (c : Char) : Bool :=
  c = ' ' || c = '\t' || c = '\n' || c = '\x0b' || c = '\x0c' || c = '\r'

/-- Model of Go `strings.TrimSpace` on byte strings. -/
def trimSpace (s : List Char) : List Char :=
  ((s.dropWhile goIsSpace).reverse.dropWhile goIsSpace).reverse

/-- Model of `bufio.dropCR`: drop one trailing carriage return if present. -/
def dropCR (l : List Char) : List Char :=
  if l.getLast? = some '\r' then l.dropLast else l

/-- Worker for `splitLines`: `acc` holds the current line read so far, in
reverse order.  Mirrors `bufio.ScanLines`: a line ends at `\n` (the final
line may be unterminated), and a terminating `\n` at end of input produces
no further token. -/
def splitLinesAux (acc : List Char) : List Char → List (List Char)
  | [] => [dropCR acc.reverse]
  | c :: rest =>
    if c = '\n' then
      match rest with
      | [] => [dropCR acc.reverse]
      | _ :: _ => dropCR acc.reverse :: splitLinesAux [] rest
    else splitLinesAux (c :: acc) rest

/-- Split a document into lines the way `bufio.Scanner` with `ScanLines`
does: empty input yields no lines. -/
def splitLines : List Char → List (List Char)
  | [] => []
  | s => splitLinesAux [] s

/-- Join lines back, terminating every line with `\n`; this is what the
scanner's `fmt.Fprintln` calls produce. -/
def joinNL (ls : List (List Char)) : List Char :=
  ls.foldr (fun l acc => l ++ '\n' :: acc) []

/-- Model of Go `strings.Split` on a single-character separator. -/
def goSplit (sep : Char) : List Char → List (List Char)
  | [] => [[]]
  | c :: rest =>
    if c = sep then [] :: goSplit sep rest
    else
      match goSplit sep rest with
      | [] => [[c]]
      | seg :: segs => (c :: seg) :: segs

/-- The argument text the scanner hands to the command parser:
`strings.Split(line, "#")[1]`, i.e. the segment of the line between the
first `#` and the second `#` (or the end of the line). -/
def argText (line : List Char) : List Char :=
  (goSplit '#' line).getD 1 []

/-- Loop body of the `fields` tokenizer, fuelled (the fuel is a termination
artifact; `fields` supplies more fuel than the loop can consume, one unit
per iteration).  Mirrors the Go loop: a group starting with `/` extends to
the next `/` found by `strings.IndexByte(s[1:], '/')`; any other group
extends to the next space; surrounding whitespace is trimmed between
groups. -/
def fieldsLoop : Nat → List Char → Except String (List (List Char))
  | _, [] => .ok []
  | 0, _ :: _ => .error "fields: out of fuel"
  | fuel + 1, s@(c :: r) =>
    if c = '/' then
      match r.findIdx? (· == '/') with
      | none => .error "unbalanced /"
      | some i =>
        match fieldsLoop fuel (trimSpace (s.drop (i + 2))) with
        | .error e => .error e
        | .ok toks => .ok (s.take (i + 2) :: toks)
    else
      match r.findIdx? (· == ' ') with
      | none => .ok [s]
      | some i =>
        match fieldsLoop fuel (trimSpace (s.drop (i + 1))) with
        | .error e => .error e
        | .ok toks => .ok (s.take (i + 1) :: toks)

/-- Model of the Go `fields` function: groups of text separated by blanks,
keeping text surrounded by `/` as a group. -/
def fields (s : List Char) : Except String (List (List Char)) :=
  fieldsLoop (s.length + 1) (trimSpace s)

/-- Model of Go `path/filepath.Ext` (forward-slash separators): the suffix
beginning at the final dot in the final path element, empty if none. -/
def filepathExt (p : List Char) : List Char :=
  let r := p.reverse.takeWhile (· != '/')
  let b := r.takeWhile (· != '.')
  if b.length = r.length then [] else (b ++ ['.']).reverse

/-- Language derived from the file extension in `parseArgs`: the Go code
computes `filepath.Ext(file[1:])` and errors when it is empty, else drops
the leading dot. -/
def extLang (file : List Char) : Option (List Char) :=
  let e := filepathExt (file.drop 1)
  if e = [] then none else some (e.drop 1)

/-- The trailing `switch len(args)` of `parseArgs`, distributing the
remaining tokens over the optional `start`/`end` boundaries. -/
def parseArgsRest (file lang : List Char) (args : List (List Char)) :
    Except String (List Char × List Char × Option (List Char) × Option (List Char)) :=
  match args with
  | [] => .ok (file, lang, none, none)
  | [st] => .ok (file, lang, some st, none)
  | [st, en] => .ok (file, lang, some st, some en)
  | _ => .error "too many arguments"

/-- Model of the Go `parseArgs`: trims the argument text, requires
surrounding parentheses, tokenizes the interior with `fields`, takes the
first token as the file, an explicit language token or the file extension
of `file[1:]` as the language, and the remaining tokens as boundaries. -/
def parseArgs (s0 : List Char) :
    Except String (List Char × List Char × Option (List Char) × Option (List Char)) :=
  let s := trimSpace s0
  if s.length < 2 ∨ s.head? ≠ some '(' ∨ s.getLast? ≠ some ')' then
    .error "argument list should be in parenthesis"
  else
    match fields ((s.drop 1).dropLast) with
    | .error e => .error e
    | .ok [] => .error "missing file name"
    | .ok (file :: args0) =>
      match args0 with
      | a :: rest =>
        if a.head? ≠ some '/' then parseArgsRest file a rest
        else
          match extLang file with
          | none => .error "language is required when file has no extension"
          | some lang => parseArgsRest file lang (a :: rest)
      | [] =>
        match extLang file with
        | none => .error "language is required when file has no extension"
        | some lang => parseArgsRest file lang []

/-- External regular-expression collaborator: `compile pat` returns
`some msg` when Go `regexp.Compile` would fail with message `msg`, and
`findIndex pat b` models `re.FindIndex(b)`, the location of the first
match of the compiled pattern. -/
structure Matcher where
  compile : List Char → Option String
  findIndex : List Char → List Char → Option (Nat × Nat)

/-- Structured errors of the extractor's `match` helper. -/
inductive ExErr where
  | missingSlashes (tok : List Char)
  | invalidRegex (msg : String)
  | noMatch (tok : List Char)
deriving DecidableEq

/-- The `match` closure inside Go `extract`: requires `/.../` shape of
length greater than two, compiles the interior, and finds the first match
in `b`. -/
def reMatch (M : Matcher) (b tok : List Char) : Except ExErr (Nat × Nat) :=
  if tok.length ≤ 2 ∨ tok.head? ≠ some '/' ∨ tok.getLast? ≠ some '/' then
    .error (.missingSlashes tok)
  else
    match M.compile ((tok.drop 1).dropLast) with
    | some msg => .error (.invalidRegex msg)
    | none =>
      match M.findIndex ((tok.drop 1).dropLast) b with
      | none => .error (.noMatch tok)
      | some loc => .ok loc

/-- Result of `extract`: a byte slice, a structured error, or a nil-pointer
dereference (the Go function panics rather than returning). -/
inductive ExtractRes where
  | ok (b : List Char)
  | err (e : ExErr)
  | nilDeref
deriving DecidableEq

/-- The final `if *end != "$"` block of Go `extract`, applied to the
(possibly already start-truncated) bytes `b`. -/
def extractEnd (M : Matcher) (b en : List Char) : ExtractRes :=
  if en ≠ ['$'] then
    match reMatch M b en with
    | .error e => .err e
    | .ok loc => .ok (b.take loc.2)
  else .ok b

/-- Model of Go `extract b start end`.  The control flow mirrors the source:
both boundaries absent returns `b`; a present non-empty `start` is matched
and either its own match is returned (no `end`) or the bytes are truncated
to begin at the start match; dereferencing `*start` with `start = nil` or
`*end` with `end = nil` is a nil-pointer dereference. -/
def extract (M : Matcher) (b : List Char) (ost oen : Option (List Char)) : ExtractRes :=
  match ost, oen with
  | none, none => .ok b
  | none, some _ => .nilDeref
  | some st, _ =>
    if st ≠ [] then
      match reMatch M b st with
      | .error er => .err er
      | .ok loc =>
        match oen with
        | none => .ok ((b.drop loc.1).take (loc.2 - loc.1))
        | some en => extractEnd M (b.drop loc.1) en
    else
      match oen with
      | none => .nilDeref
      | some en => extractEnd M b en

/-- Rendering of a structured extractor error as the Go error text
(`%q` rendered as plain double quotes). -/
def renderExErr : ExErr → String
  | .missingSlashes tok => "missing slashes (/) around \"" ++ String.mk tok ++ "\""
  | .invalidRegex msg => msg
  | .noMatch tok => "could not match \"" ++ String.mk tok ++ "\""

/-- Trailing-newline normalization in `extractFromFile`: append `\n` when
the extracted bytes are non-empty and do not already end with one. -/
def ensureNL (b : List Char) : List Char :=
  if b ≠ [] ∧ b.getLast? ≠ some '\n' then b ++ ['\n'] else b

/-- The directive marker `[embedmd]:#`. -/
def dirTok : List Char := "[embedmd]:#".toList

/-- The code-fence token. -/
def fenceTok : List Char := "```".toList

/-- The fenced block written below a directive: an opening fence tagged
with the language, the (newline-terminated) content, and a closing fence. -/
def renderBlock (lang content : List Char) : List Char :=
  fenceTok ++ lang ++ '\n' :: (content ++ (fenceTok ++ ['\n']))

/-- Model of Go `extractFromFile`: parse the argument text, fetch the
source bytes through the external collaborator, extract the requested
range, normalize the trailing newline, and render the fenced block.  The
`nilDeref` branch of `extract` is unreachable for boundaries produced by
`parseArgs` (see `extract_parseArgs_no_nilDeref`). -/
def extractFromFile (M : Matcher) (fetch : List Char → Except String (List Char))
    (args : List Char) : Except String (List Char) :=
  match parseArgs args with
  | .error e => .error e
  | .ok (file, lang, ost, oen) =>
    match fetch file with
    | .error e => .error ("could not read " ++ String.mk file ++ ": " ++ e)
    | .ok b =>
      match extract M b ost oen with
      | .err er =>
        .error ("could not extract content from " ++ String.mk file ++ ": " ++ renderExErr er)
      | .nilDeref => .error "nil pointer dereference"
      | .ok eb => .ok (renderBlock lang (ensureNL eb))

/-- The scanner's parsing states: `text` is `parsingText`, `cmd` is
`parsingCmd`, and `code p` is `codeParser{print: p}.parse` positioned on a
line strictly before the closing fence.  `codeClose p` is the tail of the
same Go function once the freshly scanned line has been recognized as the
closing fence: it prints that line when `p` is set, scans once more and
returns `parsingText`. -/
inductive PState where
  | text
  | cmd
  | code (print : Bool)
  | codeClose (print : Bool)
deriving DecidableEq

/-- The `switch` at the end of `parsingText`, choosing the state that
handles the freshly scanned line. -/
def dispatch (l : List Char) : PState :=
  if dirTok.isPrefixOf l then .cmd
  else if fenceTok.isPrefixOf l then .code true
  else .text

/-- Echo a line followed by `\n` in front of `t` when `p` is true
(`codeParser`'s conditional `fmt.Fprintln`). -/
def echoIf (p : Bool) (l t : List Char) : List Char :=
  if p then l ++ '\n' :: t else t

/-- The scanner's state-machine loop of `process`: `cur` is the current
line (`s.Text()`), `rest` the lines still to be scanned, and `n` the
1-based number of `cur`.  Errors carry the scanner's line count at the
point of failure together with the message. -/
def runScan (M : Matcher) (fetch : List Char → Except String (List Char)) :
    PState → List Char → List (List Char) → Nat → Except (Nat × String) (List Char)
  | .text, cur, rest, n =>
    Except.map (fun t => cur ++ '\n' :: t)
      (List.casesOn rest (Except.ok [])
        (fun l ls => runScan M fetch (dispatch l) l ls (n + 1)))
  | .cmd, cur, rest, n =>
    Except.casesOn (extractFromFile M fetch (argText cur))
      (fun msg => Except.error (n, msg))
      (fun bl =>
        Except.map (fun t => cur ++ '\n' :: (bl ++ t))
          (List.casesOn rest (Except.ok [])
            (fun l ls =>
              runScan M fetch (if fenceTok.isPrefixOf l then .code false else .text) l ls
                (n + 1))))
  | .code p, cur, rest, n =>
    Except.map (fun t => echoIf p cur t)
      (List.casesOn rest (Except.error (n, "unbalanced code section"))
        (fun l ls =>
          runScan M fetch (if fenceTok.isPrefixOf l then .codeClose p else .code p) l ls
            (n + 1)))
  | .codeClose p, cur, rest, n =>
    Except.map (fun t => echoIf p cur t)
      (List.casesOn rest (Except.ok [])
        (fun r rs => runScan M fetch .text r rs (n + 1)))

/-- Model of Go `process`: split the input into lines, run the state
machine starting in `parsingText` on the first line, and annotate any
error with the scanner's line count as `<line>: <message>`. -/
def process (M : Matcher) (fetch : List Char → Except String (List Char))
    (input : List Char) : Except String (List Char) :=
  match splitLines input with
  | [] => .ok []
  | first :: rest =>
    match runScan M fetch .text first rest 1 with
    | .ok out => .ok out
    | .error (n, msg) => .error (toString n ++ ": " ++ msg)

/-- A matcher whose patterns always compile and match literally: the first
match of `pat` is the first occurrence of `pat` as a contiguous substring
(the semantics of Go regexp matching for literal patterns). -/
def findSub (pat : List Char) : List Char → Option Nat
  | [] => if pat.isPrefixOf ([] : List Char) then some 0 else none
  | b@(_ :: r) => if pat.isPrefixOf b then some 0 else (findSub pat r).map (· + 1)

/-- Matcher interpreting every pattern as a literal substring search. -/
def litMatcher : Matcher where
  compile := fun _ => none
  findIndex := fun pat b => (findSub pat b).map (fun i => (i, i + pat.length))

/-- Matcher whose patterns compile but never match. -/
def noMatcher : Matcher where
  compile := fun _ => none
  findIndex := fun _ _ => none

/-- Fetch collaborator that fails on every path. -/
def noFetch : List Char → Except String (List Char) := fun _ => .error "file does not exist"

/-- Fetch collaborator serving exactly one file. -/
def oneFetch (path content : List Char) : List Char → Except String (List Char) :=
  fun p => if p = path then .ok content else .error "file does not exist"

/-! ### Structural lemmas about lines -/

/-- A well-formed scanner line: produced by `splitLines`, it contains no
newline; re-echoing it is stable when it also does not end in `\r`. -/
def lineOK (l : List Char) : Prop := '\n' ∉ l ∧ l.getLast? ≠ some '\r'

theorem mem_dropCR {x : Char} {l : List Char} (h : x ∈ dropCR l) : x ∈ l := by
  unfold dropCR at h
  split at h
  · exact List.dropLast_subset l h
  · exact h

theorem dropCR_eq_self {l : List Char} (h : l.getLast? ≠ some '\r') : dropCR l = l := by
  unfold dropCR
  exact if_neg h

theorem splitLinesAux_no_newline {x : Char} :
    ∀ (s acc : List Char), ('\n' ∉ acc) → ∀ l ∈ splitLinesAux acc s, x ∈ l → x ≠ '\n' := by
  intro s
  induction s with
  | nil =>
    intro acc hacc l hl hx
    simp only [splitLinesAux, List.mem_singleton] at hl
    subst hl
    intro heq; subst heq
    exact hacc (by simpa using mem_dropCR hx)
  | cons c rest ih =>
    intro acc hacc l hl hx
    simp only [splitLinesAux] at hl
    by_cases hc : c = '\n'
    · rw [if_pos hc] at hl
      match rest with
      | [] =>
        simp only [List.mem_singleton] at hl
        subst hl
        intro heq; subst heq
        exact hacc (by simpa using mem_dropCR hx)
      | r :: rs =>
        simp only [List.mem_cons] at hl
        rcases hl with hl | hl
        · subst hl
          intro heq; subst heq
          exact hacc (by simpa using mem_dropCR hx)
        · exact ih [] (by simp) l hl hx
    · rw [if_neg hc] at hl
      exact ih (c :: acc) (by simp [hacc, Ne.symm, hc]) l hl hx

theorem splitLines_no_newline {s : List Char} : ∀ l ∈ splitLines s, '\n' ∉ l := by
  intro l hl hx
  unfold splitLines at hl
  match s with
  | [] => simp at hl
  | c :: rest =>
    exact splitLinesAux_no_newline (c :: rest) [] (by simp) l hl hx rfl

theorem splitLinesAux_line (l : List Char) :
    ∀ (acc t : List Char), '\n' ∉ l →
      splitLinesAux acc (l ++ '\n' :: t) = dropCR (acc.reverse ++ l) :: splitLines t := by
  induction l with
  | nil =>
    intro acc t _
    simp only [List.nil_append, splitLinesAux, if_pos rfl, List.append_nil]
    match t with
    | [] => rfl
    | c :: rest => rfl
  | cons x xs ih =>
    intro acc t hnl
    have hx : x ≠ '\n' := fun h => hnl (h ▸ List.mem_cons_self x xs)
    have hxs : '\n' ∉ xs := fun h => hnl (List.mem_cons_of_mem x h)
    simp only [List.cons_append, List.append_eq, splitLinesAux, if_neg hx]
    rw [ih (x :: acc) t hxs]
    simp [List.append_assoc]

theorem splitLines_line {l : List Char} (t : List Char) (hnl : '\n' ∉ l) :
    splitLines (l ++ '\n' :: t) = dropCR l :: splitLines t := by
  have hne : l ++ '\n' :: t ≠ [] := by
    cases l <;> simp
  have : splitLines (l ++ '\n' :: t) = splitLinesAux [] (l ++ '\n' :: t) := by
    unfold splitLines
    match h : l ++ '\n' :: t with
    | [] => exact absurd h hne
    | c :: rest => rfl
  rw [this, splitLinesAux_line l [] t hnl]
  simp

theorem splitLines_line_ok {l : List Char} (t : List Char) (h : lineOK l) :
    splitLines (l ++ '\n' :: t) = l :: splitLines t := by
  rw [splitLines_line t h.1, dropCR_eq_self h.2]

theorem mem_newline_decomp {a : List Char} (h : '\n' ∈ a) :
    ∃ l t, a = l ++ '\n' :: t ∧ '\n' ∉ l := by
  induction a with
  | nil => simp at h
  | cons c rest ih =>
    by_cases hc : c = '\n'
    · exact ⟨[], rest, by simp [hc], by simp⟩
    · have : '\n' ∈ rest := by
        rcases List.mem_cons.mp h with h1 | h1
        · exact absurd h1.symm hc
        · exact h1
      obtain ⟨l, t, hlt, hnl⟩ := ih this
      exact ⟨c :: l, t, by simp [hlt], by simp [hnl, Ne.symm hc]⟩

theorem splitLines_append_bound :
    ∀ (n : Nat) (a b : List Char), a.length ≤ n → a.getLast? = some '\n' →
      splitLines (a ++ b) = splitLines a ++ splitLines b := by
  intro n
  induction n with
  | zero =>
    intro a b hlen ha
    have : a = [] := List.length_eq_zero.mp (Nat.le_zero.mp hlen)
    subst this
    simp at ha
  | succ n ih =>
    intro a b hlen ha
    have hmem : '\n' ∈ a := by
      have h2 := List.dropLast_append_getLast? '\n' (show '\n' ∈ a.getLast? from ha)
      rw [← h2]
      simp
    obtain ⟨l, t, hlt, hnl⟩ := mem_newline_decomp hmem
    subst hlt
    match t with
    | [] =>
      rw [List.append_assoc]
      simp only [List.cons_append, List.nil_append]
      rw [splitLines_line b hnl, splitLines_line [] hnl]
      simp [splitLines]
    | c :: ts =>
      have hlast : (c :: ts).getLast? = some '\n' := by
        rw [List.getLast?_append_cons, List.getLast?_cons_cons] at ha
        exact ha
      have hlen2 : (c :: ts).length ≤ n := by
        simp only [List.length_append, List.length_cons] at hlen ⊢
        omega
      rw [List.append_assoc, List.cons_append]
      rw [splitLines_line ((c :: ts) ++ b) hnl, splitLines_line (c :: ts) hnl]
      rw [ih _ b hlen2 hlast]
      simp

theorem splitLines_append {a : List Char} (b : List Char) (ha : a.getLast? = some '\n') :
    splitLines (a ++ b) = splitLines a ++ splitLines b :=
  splitLines_append_bound a.length a b le_rfl ha

/-! ### Membership lemmas for the tokenizer and parser -/

theorem mem_trimSpace {x : Char} {s : List Char} (h : x ∈ trimSpace s) : x ∈ s := by
  unfold trimSpace at h
  rw [List.mem_reverse] at h
  have h2 := (List.dropWhile_sublist (l := (s.dropWhile goIsSpace).reverse) (p := goIsSpace)).subset h
  rw [List.mem_reverse] at h2
  exact (List.dropWhile_sublist (l := s) (p := goIsSpace)).subset h2

theorem goSplit_ne_nil (c : Char) (s : List Char) : goSplit c s ≠ [] := by
  cases s with
  | nil => simp [goSplit]
  | cons x r =>
    simp only [goSplit]
    split
    · simp
    · split <;> simp

theorem goSplit_marker (c : Char) (a b : List Char) (h : c ∉ a) :
    goSplit c (a ++ c :: b) = a :: goSplit c b := by
  induction a with
  | nil => simp [goSplit]
  | cons x xs ih =>
    have hx : x ≠ c := fun he => h (he ▸ List.mem_cons_self x xs)
    have hxs : c ∉ xs := fun he => h (List.mem_cons_of_mem x he)
    simp only [List.cons_append, goSplit, if_neg hx, List.append_eq]
    rw [ih hxs]

theorem goSplit_head (c : Char) (s : List Char) :
    ∃ t, goSplit c s = (s.takeWhile (fun x => x != c)) :: t := by
  induction s with
  | nil => exact ⟨[], rfl⟩
  | cons x r ih =>
    by_cases hx : x = c
    · subst hx
      exact ⟨goSplit x r, by simp [goSplit, List.takeWhile]⟩
    · obtain ⟨t, ht⟩ := ih
      refine ⟨t, ?_⟩
      simp only [goSplit, if_neg hx, ht, List.takeWhile]
      have hb : (x != c) = true := by simp [hx]
      rw [hb]

theorem goSplit_mem_sub {c : Char} {s seg : List Char} (h : seg ∈ goSplit c s) :
    ∀ x ∈ seg, x ∈ s := by
  induction s generalizing seg with
  | nil =>
    simp only [goSplit, List.mem_singleton] at h
    subst h
    simp
  | cons y r ih =>
    intro x hx
    simp only [goSplit] at h
    by_cases hy : y = c
    · rw [if_pos hy] at h
      rcases List.mem_cons.mp h with h1 | h1
      · subst h1; simp at hx
      · exact List.mem_cons_of_mem y (ih h1 x hx)
    · rw [if_neg hy] at h
      rcases hsp : goSplit c r with _ | ⟨seg0, segs⟩
      · exact absurd hsp (goSplit_ne_nil c r)
      · rw [hsp] at h
        rcases List.mem_cons.mp h with h1 | h1
        · subst h1
          rcases List.mem_cons.mp hx with h2 | h2
          · exact h2 ▸ List.mem_cons_self y r
          · exact List.mem_cons_of_mem y (ih (hsp ▸ List.mem_cons_self seg0 segs) x h2)
        · exact List.mem_cons_of_mem y (ih (hsp ▸ List.mem_cons_of_mem seg0 h1) x hx)

theorem argText_sub {line : List Char} : ∀ x ∈ argText line, x ∈ line := by
  intro x hx
  unfold argText at hx
  rcases hget : (goSplit '#' line).get? 1 with _ | seg
  · rw [List.getD_eq_getD_get?, hget] at hx
    simp at hx
  · rw [List.getD_eq_getD_get?, hget] at hx
    exact goSplit_mem_sub (List.get?_mem hget) x hx

theorem fieldsLoop_sub :
    ∀ (fuel : Nat) (s : List Char) (toks : List (List Char)),
      fieldsLoop fuel s = .ok toks → ∀ t ∈ toks, ∀ x ∈ t, x ∈ s := by
  intro fuel
  induction fuel with
  | zero =>
    intro s toks h t ht x hx
    cases s with
    | nil =>
      simp only [fieldsLoop, Except.ok.injEq] at h
      subst h; simp at ht
    | cons c r => simp [fieldsLoop] at h
  | succ n ih =>
    intro s toks h t ht x hx
    cases s with
    | nil =>
      simp only [fieldsLoop, Except.ok.injEq] at h
      subst h; simp at ht
    | cons c r =>
      simp only [fieldsLoop] at h
      by_cases hc : c = '/'
      · rw [if_pos hc] at h
        split at h
        · exact absurd h (by simp)
        · split at h
          · exact absurd h (by simp)
          · next toks2 hrec =>
            simp only [Except.ok.injEq] at h
            subst h
            rcases List.mem_cons.mp ht with h1 | h1
            · subst h1
              exact List.take_subset _ _ hx
            · exact List.drop_subset _ _ (mem_trimSpace (ih _ _ hrec t h1 x hx))
      · rw [if_neg hc] at h
        split at h
        · simp only [Except.ok.injEq] at h
          subst h
          rcases List.mem_cons.mp ht with h1 | h1
          · subst h1; exact hx
          · simp at h1
        · split at h
          · exact absurd h (by simp)
          · next toks2 hrec =>
            simp only [Except.ok.injEq] at h
            subst h
            rcases List.mem_cons.mp ht with h1 | h1
            · subst h1
              exact List.take_subset _ _ hx
            · exact List.drop_subset _ _ (mem_trimSpace (ih _ _ hrec t h1 x hx))

theorem fields_sub {s : List Char} {toks : List (List Char)} (h : fields s = .ok toks) :
    ∀ t ∈ toks, ∀ x ∈ t, x ∈ s := by
  intro t ht x hx
  exact mem_trimSpace (fieldsLoop_sub _ _ _ h t ht x hx)

theorem takeWhile_eq_self_of_forall {r : List Char} {ch : Char} (h : ∀ y ∈ r, y ≠ ch) :
    r.takeWhile (· != ch) = r := by
  induction r with
  | nil => rfl
  | cons y ys ih =>
    have hy : (y != ch) = true := by
      simp [h y (List.mem_cons_self y ys)]
    simp only [List.takeWhile, hy]
    rw [ih fun z hz => h z (List.mem_cons_of_mem y hz)]

theorem filepathExt_sub {p : List Char} : ∀ x ∈ filepathExt p, x ∈ p := by
  intro x hx
  simp only [filepathExt] at hx
  split at hx
  · simp at hx
  · next hne =>
    rw [List.mem_reverse, List.mem_append] at hx
    have hrp : ∀ y ∈ p.reverse.takeWhile (· != '/'), y ∈ p := by
      intro y hy
      rw [← List.mem_reverse]
      exact (List.takeWhile_sublist (p := fun c => c != '/')).subset hy
    rcases hx with hx | hx
    · exact hrp x ((List.takeWhile_sublist (p := fun c => c != '.')).subset hx)
    · rw [List.mem_singleton] at hx
      subst hx
      by_contra hdot
      have hnd : ∀ y ∈ p.reverse.takeWhile (· != '/'), y ≠ '.' := by
        intro y hy he
        exact hdot (he ▸ hrp y hy)
      exact hne (by rw [takeWhile_eq_self_of_forall hnd])

theorem parseArgsRest_inv {f lg f2 lg2 : List Char} {args : List (List Char)}
    {ost oen : Option (List Char)}
    (h : parseArgsRest f lg args = .ok (f2, lg2, ost, oen)) : f2 = f ∧ lg2 = lg := by
  match args with
  | [] =>
    simp only [parseArgsRest, Except.ok.injEq, Prod.mk.injEq] at h
    exact ⟨h.1.symm, h.2.1.symm⟩
  | [st] =>
    simp only [parseArgsRest, Except.ok.injEq, Prod.mk.injEq] at h
    exact ⟨h.1.symm, h.2.1.symm⟩
  | [st, en] =>
    simp only [parseArgsRest, Except.ok.injEq, Prod.mk.injEq] at h
    exact ⟨h.1.symm, h.2.1.symm⟩
  | _ :: _ :: _ :: _ => simp [parseArgsRest] at h

theorem extLang_inv {file lg : List Char} (h : extLang file = some lg) :
    lg = (filepathExt (file.drop 1)).drop 1 := by
  simp only [extLang] at h
  split at h
  · exact absurd h (by simp)
  · simpa using h.symm

theorem parseArgs_lang_sub {a file lang : List Char} {ost oen : Option (List Char)}
    (h : parseArgs a = .ok (file, lang, ost, oen)) : ∀ x ∈ lang, x ∈ a := by
  intro x hx
  simp only [parseArgs] at h
  split at h
  · exact absurd h (by simp)
  · split at h
    · exact absurd h (by simp)
    · exact absurd h (by simp)
    · next file0 args0 hfields =>
      have hsub : ∀ t ∈ file0 :: args0, ∀ y ∈ t, y ∈ a := by
        intro t ht y hy
        have h1 := fields_sub hfields t ht y hy
        exact mem_trimSpace (List.drop_subset _ _ (List.dropLast_subset _ h1))
      match args0 with
      | a0 :: rest =>
        simp only at h
        split at h
        · have hl := (parseArgsRest_inv h).2
          subst hl
          exact hsub lang (by simp) x hx
        · split at h
          · exact absurd h (by simp)
          · next lg hext =>
            have hl := (parseArgsRest_inv h).2
            subst hl
            have hlg := extLang_inv hext
            subst hlg
            have h1 : x ∈ filepathExt (file0.drop 1) := List.drop_subset _ _ hx
            have h2 : x ∈ file0 := List.drop_subset _ _ (filepathExt_sub x h1)
            exact hsub file0 (by simp) x h2
      | [] =>
        simp only at h
        split at h
        · exact absurd h (by simp)
        · next lg hext =>
          have hl := (parseArgsRest_inv h).2
          subst hl
          have hlg := extLang_inv hext
          subst hlg
          have h1 : x ∈ filepathExt (file0.drop 1) := List.drop_subset _ _ hx
          have h2 : x ∈ file0 := List.drop_subset _ _ (filepathExt_sub x h1)
          exact hsub file0 (by simp) x h2

/-! ### Dispatch lemmas -/

theorem not_dir_of_fence {l : List Char} (h : fenceTok.isPrefixOf l) :
    ¬ dirTok.isPrefixOf l := by
  intro h2
  rw [List.isPrefixOf_iff_prefix] at h h2
  obtain ⟨t1, ht1⟩ := h
  obtain ⟨t2, ht2⟩ := h2
  rw [← ht1] at ht2
  have h3 : ('`' : Char) = '[' := by
    have h4 := congrArg (List.head? ·) ht2
    simp [fenceTok, dirTok] at h4
  exact absurd h3 (by decide)

theorem dispatch_dir {l : List Char} (h : dirTok.isPrefixOf l) : dispatch l = .cmd := by
  unfold dispatch
  rw [if_pos h]

theorem dispatch_fence {l : List Char} (h : fenceTok.isPrefixOf l) :
    dispatch l = .code true := by
  unfold dispatch
  rw [if_neg (by simpa using not_dir_of_fence h), if_pos h]

theorem dispatch_plain {l : List Char} (h1 : ¬ dirTok.isPrefixOf l)
    (h2 : ¬ fenceTok.isPrefixOf l) : dispatch l = .text := by
  unfold dispatch
  rw [if_neg (by simpa using h1), if_neg (by simpa using h2)]

theorem dispatch_ne_codeFalse (l : List Char) : dispatch l ≠ .code false := by
  unfold dispatch
  split
  · simp
  · split <;> simp

/-! ### Small-step equations for the scanner -/

theorem runScan_text_nil (M : Matcher) (fetch : List Char → Except String (List Char))
    (cur : List Char) (n : Nat) :
    runScan M fetch .text cur [] n = .ok (cur ++ '\n' :: []) := rfl

theorem runScan_text_cons (M : Matcher) (fetch : List Char → Except String (List Char))
    (cur l : List Char) (ls : List (List Char)) (n : Nat) :
    runScan M fetch .text cur (l :: ls) n =
      Except.map (fun t => cur ++ '\n' :: t) (runScan M fetch (dispatch l) l ls (n + 1)) := rfl

theorem runScan_cmd_nil_eq (M : Matcher) (fetch : List Char → Except String (List Char))
    (cur : List Char) (n : Nat) :
    runScan M fetch .cmd cur [] n =
      Except.casesOn (extractFromFile M fetch (argText cur))
        (fun msg => Except.error (n, msg))
        (fun bl => Except.ok (cur ++ '\n' :: (bl ++ []))) := rfl

theorem runScan_cmd_cons_eq (M : Matcher) (fetch : List Char → Except String (List Char))
    (cur l : List Char) (ls : List (List Char)) (n : Nat) :
    runScan M fetch .cmd cur (l :: ls) n =
      Except.casesOn (extractFromFile M fetch (argText cur))
        (fun msg => Except.error (n, msg))
        (fun bl =>
          Except.map (fun t => cur ++ '\n' :: (bl ++ t))
            (runScan M fetch (if fenceTok.isPrefixOf l then .code false else .text) l ls
              (n + 1))) := rfl

theorem runScan_cmd_err {M : Matcher} {fetch : List Char → Except String (List Char)}
    {cur : List Char} {msg : String} (rest : List (List Char)) (n : Nat)
    (h : extractFromFile M fetch (argText cur) = .error msg) :
    runScan M fetch .cmd cur rest n = .error (n, msg) := by
  cases rest with
  | nil => rw [runScan_cmd_nil_eq, h]
  | cons l ls => rw [runScan_cmd_cons_eq, h]

theorem runScan_cmd_nil_ok {M : Matcher} {fetch : List Char → Except String (List Char)}
    {cur bl : List Char} (n : Nat)
    (h : extractFromFile M fetch (argText cur) = .ok bl) :
    runScan M fetch .cmd cur [] n = .ok (cur ++ '\n' :: (bl ++ [])) := by
  rw [runScan_cmd_nil_eq, h]

theorem runScan_cmd_cons_ok {M : Matcher} {fetch : List Char → Except String (List Char)}
    {cur bl : List Char} (l : List Char) (ls : List (List Char)) (n : Nat)
    (h : extractFromFile M fetch (argText cur) = .ok bl) :
    runScan M fetch .cmd cur (l :: ls) n =
      Except.map (fun t => cur ++ '\n' :: (bl ++ t))
        (runScan M fetch (if fenceTok.isPrefixOf l then .code false else .text) l ls
          (n + 1)) := by
  rw [runScan_cmd_cons_eq, h]

theorem runScan_code_nil (M : Matcher) (fetch : List Char → Except String (List Char))
    (p : Bool) (cur : List Char) (n : Nat) :
    runScan M fetch (.code p) cur [] n = .error (n, "unbalanced code section") := rfl

theorem runScan_code_cons (M : Matcher) (fetch : List Char → Except String (List Char))
    (p : Bool) (cur l : List Char) (ls : List (List Char)) (n : Nat) :
    runScan M fetch (.code p) cur (l :: ls) n =
      Except.map (fun t => echoIf p cur t)
        (runScan M fetch (if fenceTok.isPrefixOf l then .codeClose p else .code p) l ls
          (n + 1)) := rfl

theorem runScan_codeClose_nil (M : Matcher) (fetch : List Char → Except String (List Char))
    (p : Bool) (cur : List Char) (n : Nat) :
    runScan M fetch (.codeClose p) cur [] n = .ok (echoIf p cur []) := rfl

theorem runScan_codeClose_cons (M : Matcher) (fetch : List Char → Except String (List Char))
    (p : Bool) (cur r : List Char) (rs : List (List Char)) (n : Nat) :
    runScan M fetch (.codeClose p) cur (r :: rs) n =
      Except.map (fun t => echoIf p cur t) (runScan M fetch .text r rs (n + 1)) := rfl

/-! ### Scanner traversal lemmas -/

theorem runScan_code_skip (M : Matcher) (fetch : List Char → Except String (List Char)) :
    ∀ (mid : List (List Char)) (cur close : List Char) (rest2 : List (List Char)) (n : Nat),
      (∀ l ∈ mid, ¬ fenceTok.isPrefixOf l) → fenceTok.isPrefixOf close →
      runScan M fetch (.code false) cur (mid ++ close :: rest2) n =
        match rest2 with
        | [] => .ok []
        | r :: rs => runScan M fetch .text r rs (n + mid.length + 2) := by
  intro mid
  induction mid with
  | nil =>
    intro cur close rest2 n _ hcl
    rw [List.nil_append, runScan_code_cons, if_pos hcl]
    match rest2 with
    | [] => rw [runScan_codeClose_nil]; rfl
    | r :: rs =>
      rw [runScan_codeClose_cons,
        show n + List.length ([] : List (List Char)) + 2 = n + 1 + 1 from rfl]
      cases hres : runScan M fetch .text r rs (n + 1 + 1) with
      | ok t => simp [hres, Except.map, echoIf]
      | error e => simp [hres, Except.map, echoIf]
  | cons m ms ih =>
    intro cur close rest2 n hmid hcl
    have hm : ¬ fenceTok.isPrefixOf m := hmid m (List.mem_cons_self m ms)
    rw [List.cons_append, runScan_code_cons, if_neg hm]
    rw [ih m close rest2 (n + 1) (fun l hl => hmid l (List.mem_cons_of_mem m hl)) hcl]
    have harith : n + (m :: ms).length + 2 = n + 1 + ms.length + 2 := by
      simp only [List.length_cons]
      omega
    rw [harith]
    match rest2 with
    | [] => rfl
    | r :: rs =>
      cases hres : runScan M fetch .text r rs (n + 1 + ms.length + 2) with
      | ok t => simp [hres, Except.map, echoIf]
      | error e => simp [hres, Except.map, echoIf]

theorem runScan_code_echo (M : Matcher) (fetch : List Char → Except String (List Char)) :
    ∀ (mid : List (List Char)) (cur close : List Char) (rest2 : List (List Char)) (n : Nat),
      (∀ l ∈ mid, ¬ fenceTok.isPrefixOf l) → fenceTok.isPrefixOf close →
      runScan M fetch (.code true) cur (mid ++ close :: rest2) n =
        Except.map (fun t => joinNL (cur :: mid) ++ close ++ '\n' :: t)
          (match rest2 with
           | [] => Except.ok []
           | r :: rs => runScan M fetch .text r rs (n + mid.length + 2)) := by
  intro mid
  induction mid with
  | nil =>
    intro cur close rest2 n _ hcl
    rw [List.nil_append, runScan_code_cons, if_pos hcl]
    match rest2 with
    | [] =>
      rw [runScan_codeClose_nil]
      simp [Except.map, echoIf, joinNL]
    | r :: rs =>
      rw [runScan_codeClose_cons,
        show n + List.length ([] : List (List Char)) + 2 = n + 1 + 1 from rfl]
      cases hres : runScan M fetch .text r rs (n + 1 + 1) with
      | ok t => simp [hres, Except.map, echoIf, joinNL]
      | error e => simp [hres, Except.map, echoIf]
  | cons m ms ih =>
    intro cur close rest2 n hmid hcl
    have hm : ¬ fenceTok.isPrefixOf m := hmid m (List.mem_cons_self m ms)
    rw [List.cons_append, runScan_code_cons, if_neg hm]
    rw [ih m close rest2 (n + 1) (fun l hl => hmid l (List.mem_cons_of_mem m hl)) hcl]
    have harith : n + (m :: ms).length + 2 = n + 1 + ms.length + 2 := by
      simp only [List.length_cons]
      omega
    rw [harith]
    match rest2 with
    | [] => simp [Except.map, echoIf, joinNL]
    | r :: rs =>
      cases hres : runScan M fetch .text r rs (n + 1 + ms.length + 2) with
      | ok t => simp [hres, Except.map, echoIf, joinNL]
      | error e => simp [hres, Except.map, echoIf]

theorem runScan_code_unbalanced (M : Matcher) (fetch : List Char → Except String (List Char)) :
    ∀ (rest : List (List Char)) (p : Bool) (cur : List Char) (n : Nat),
      (∀ l ∈ rest, ¬ fenceTok.isPrefixOf l) →
      runScan M fetch (.code p) cur rest n =
        .error (n + rest.length, "unbalanced code section") := by
  intro rest
  induction rest with
  | nil =>
    intro p cur n _
    rw [runScan_code_nil]
    rfl
  | cons l ls ih =>
    intro p cur n hrest
    have hl : ¬ fenceTok.isPrefixOf l := hrest l (List.mem_cons_self l ls)
    rw [runScan_code_cons, if_neg hl]
    rw [ih p l (n + 1) (fun l2 hl2 => hrest l2 (List.mem_cons_of_mem l hl2))]
    have harith : n + 1 + ls.length = n + (l :: ls).length := by
      simp only [List.length_cons]
      omega
    rw [harith]
    rfl

theorem runScan_echo_all (M : Matcher) (fetch : List Char → Except String (List Char)) :
    ∀ (rest : List (List Char)),
      (∀ l ∈ rest, ¬ dirTok.isPrefixOf l) →
      ∀ (st : PState), (st = .text ∨ st = .code true ∨ st = .codeClose true) →
      ∀ (cur : List Char) (n : Nat) (out : List Char),
        runScan M fetch st cur rest n = .ok out → out = joinNL (cur :: rest) := by
  intro rest
  induction rest with
  | nil =>
    intro _ st hst cur n out h
    rcases hst with hst | hst | hst <;> subst hst
    · rw [runScan_text_nil] at h
      simp only [Except.ok.injEq] at h
      subst h
      simp [joinNL]
    · rw [runScan_code_nil] at h
      exact absurd h (by simp)
    · rw [runScan_codeClose_nil] at h
      simp only [Except.ok.injEq] at h
      subst h
      simp [joinNL, echoIf]
  | cons l ls ih =>
    intro hdir st hst cur n out h
    have hld : ¬ dirTok.isPrefixOf l := hdir l (List.mem_cons_self l ls)
    have hls : ∀ l2 ∈ ls, ¬ dirTok.isPrefixOf l2 :=
      fun l2 hl2 => hdir l2 (List.mem_cons_of_mem l hl2)
    rcases hst with hst | hst | hst <;> subst hst
    · rw [runScan_text_cons] at h
      cases hres : runScan M fetch (dispatch l) l ls (n + 1) with
      | error e => rw [hres] at h; exact absurd h (by simp [Except.map])
      | ok t =>
        rw [hres] at h
        simp only [Except.map, Except.ok.injEq] at h
        subst h
        have hdisp : dispatch l = .text ∨ dispatch l = .code true ∨
            dispatch l = .codeClose true := by
          by_cases hf : fenceTok.isPrefixOf l
          · exact Or.inr (Or.inl (dispatch_fence hf))
          · exact Or.inl (dispatch_plain hld hf)
        have := ih hls (dispatch l) hdisp l (n + 1) t hres
        subst this
        simp [joinNL]
    · rw [runScan_code_cons] at h
      by_cases hf : fenceTok.isPrefixOf l
      · rw [if_pos hf] at h
        cases hres : runScan M fetch (.codeClose true) l ls (n + 1) with
        | error e => rw [hres] at h; exact absurd h (by simp [Except.map])
        | ok t =>
          rw [hres] at h
          simp only [Except.map, Except.ok.injEq] at h
          subst h
          have := ih hls (.codeClose true) (Or.inr (Or.inr rfl)) l (n + 1) t hres
          subst this
          simp [joinNL, echoIf]
      · rw [if_neg hf] at h
        cases hres : runScan M fetch (.code true) l ls (n + 1) with
        | error e => rw [hres] at h; exact absurd h (by simp [Except.map])
        | ok t =>
          rw [hres] at h
          simp only [Except.map, Except.ok.injEq] at h
          subst h
          have := ih hls (.code true) (Or.inr (Or.inl rfl)) l (n + 1) t hres
          subst this
          simp [joinNL, echoIf]
    · rw [runScan_codeClose_cons] at h
      cases hres : runScan M fetch .text l ls (n + 1) with
      | error e => rw [hres] at h; exact absurd h (by simp [Except.map])
      | ok t =>
        rw [hres] at h
        simp only [Except.map, Except.ok.injEq] at h
        subst h
        have := ih hls .text (Or.inl rfl) l (n + 1) t hres
        subst this
        simp [joinNL, echoIf]

/-! ### Second-run simulation -/

/-- A well-formed rendered block: it ends with a newline, and its lines are
a fence-prefixed opening line, interior lines that do not start with a
fence, and the exact closing fence. -/
def BlockOK (bl : List Char) : Prop :=
  bl.getLast? = some '\n' ∧
  ∃ f mid, splitLines bl = f :: mid ++ [fenceTok] ∧ fenceTok.isPrefixOf f ∧
    ∀ l ∈ mid, ¬ fenceTok.isPrefixOf l

theorem fenceTok_isPrefixOf_self : fenceTok.isPrefixOf fenceTok := by decide

/-- Simulation invariant: if the first run, in state `st` on current line
`cur`, succeeds with output `out`, then re-scanning the lines of `out`
from the corresponding state reproduces `out` exactly (for the suppressed
states, `out` belongs to the continuation and re-scanning starts in
`text`). -/
theorem sim (M : Matcher) (fetch : List Char → Except String (List Char))
    (hblk : ∀ a bl, '\n' ∉ a → extractFromFile M fetch a = .ok bl → BlockOK bl) :
    ∀ (rest : List (List Char)) (cur : List Char) (n : Nat) (out : List Char) (st : PState),
      (∀ l ∈ cur :: rest, lineOK l) →
      runScan M fetch st cur rest n = .ok out →
      if st = .code false ∨ st = .codeClose false then
        out = [] ∨ ∃ r L, splitLines out = r :: L ∧ ∀ m, runScan M fetch .text r L m = .ok out
      else ∃ L, splitLines out = cur :: L ∧ ∀ m, runScan M fetch st cur L m = .ok out := by
  intro rest
  induction rest with
  | nil =>
    intro cur n out st hok h
    have hcur : lineOK cur := hok cur (List.mem_cons_self _ _)
    cases st with
    | text =>
      rw [if_neg (by simp)]
      rw [runScan_text_nil] at h
      simp only [Except.ok.injEq] at h
      subst h
      refine ⟨[], ?_, fun m => ?_⟩
      · rw [splitLines_line_ok [] hcur]
        rfl
      · rw [runScan_text_nil]
    | cmd =>
      rw [if_neg (by simp)]
      rcases hx : extractFromFile M fetch (argText cur) with msg | bl
      · rw [runScan_cmd_err [] n hx] at h
        exact absurd h (by simp)
      · rw [runScan_cmd_nil_ok n hx] at h
        simp only [Except.ok.injEq] at h
        subst h
        have hna : '\n' ∉ argText cur := fun hm => hcur.1 (argText_sub _ hm)
        obtain ⟨hnl, f, mid, hsplit, hf, hmid⟩ := hblk _ _ hna hx
        refine ⟨f :: (mid ++ [fenceTok]), ?_, fun m => ?_⟩
        · rw [List.append_nil, splitLines_line_ok bl hcur, hsplit]
          simp
        · rw [runScan_cmd_cons_ok _ _ _ hx, if_pos hf,
            runScan_code_skip M fetch mid f fenceTok [] (m + 1) hmid fenceTok_isPrefixOf_self]
          rfl
    | code p =>
      rw [runScan_code_nil] at h
      exact absurd h (by simp)
    | codeClose p =>
      rw [runScan_codeClose_nil] at h
      simp only [Except.ok.injEq] at h
      subst h
      cases p with
      | false => simp [echoIf]
      | true =>
        rw [if_neg (by simp)]
        refine ⟨[], ?_, fun m => ?_⟩
        · show splitLines (cur ++ '\n' :: []) = cur :: []
          rw [splitLines_line_ok [] hcur]
          rfl
        · rw [runScan_codeClose_nil]
  | cons l ls ih =>
    intro cur n out st hok h
    have hcur : lineOK cur := hok cur (List.mem_cons_self _ _)
    have hl : lineOK l := hok l (by simp)
    have hok2 : ∀ x ∈ l :: ls, lineOK x := fun x hx => hok x (List.mem_cons_of_mem cur hx)
    cases st with
    | text =>
      rw [if_neg (by simp)]
      rw [runScan_text_cons] at h
      cases hres : runScan M fetch (dispatch l) l ls (n + 1) with
      | error e => rw [hres] at h; exact absurd h (by simp [Except.map])
      | ok t =>
        rw [hres] at h
        simp only [Except.map, Except.ok.injEq] at h
        subst h
        have hcont := ih l (n + 1) t (dispatch l) hok2 hres
        rw [if_neg (by
          have h1 := dispatch_ne_codeFalse l
          unfold dispatch
          split
          · simp
          · split <;> simp)] at hcont
        obtain ⟨L, hsl, hrun⟩ := hcont
        refine ⟨l :: L, ?_, fun m => ?_⟩
        · rw [splitLines_line_ok t hcur, hsl]
        · rw [runScan_text_cons, hrun (m + 1)]
          rfl
    | cmd =>
      rw [if_neg (by simp)]
      rcases hx : extractFromFile M fetch (argText cur) with msg | bl
      · rw [runScan_cmd_err (l :: ls) n hx] at h
        exact absurd h (by simp)
      · rw [runScan_cmd_cons_ok _ _ _ hx] at h
        have hna : '\n' ∉ argText cur := fun hm => hcur.1 (argText_sub _ hm)
        obtain ⟨hnl, f, mid, hsplit, hf, hmid⟩ := hblk _ _ hna hx
        -- continuation result and its text-shape
        have hcont : ∃ t, runScan M fetch (if fenceTok.isPrefixOf l then .code false else .text)
            l ls (n + 1) = .ok t ∧ out = cur ++ '\n' :: (bl ++ t) ∧
            (splitLines t = [] ∧ t = [] ∨
              ∃ r L, splitLines t = r :: L ∧ ∀ m, runScan M fetch .text r L m = .ok t) := by
          by_cases hfl : fenceTok.isPrefixOf l
          · rw [if_pos hfl] at h ⊢
            cases hres : runScan M fetch (.code false) l ls (n + 1) with
            | error e => rw [hres] at h; exact absurd h (by simp [Except.map])
            | ok t =>
              rw [hres] at h
              simp only [Except.map, Except.ok.injEq] at h
              refine ⟨t, rfl, h.symm, ?_⟩
              have := ih l (n + 1) t (.code false) hok2 hres
              rw [if_pos (by simp)] at this
              rcases this with hnil | ⟨r, L, hsl, hrun⟩
              · subst hnil
                exact Or.inl ⟨rfl, rfl⟩
              · exact Or.inr ⟨r, L, hsl, hrun⟩
          · rw [if_neg hfl] at h ⊢
            cases hres : runScan M fetch .text l ls (n + 1) with
            | error e => rw [hres] at h; exact absurd h (by simp [Except.map])
            | ok t =>
              rw [hres] at h
              simp only [Except.map, Except.ok.injEq] at h
              refine ⟨t, rfl, h.symm, ?_⟩
              have := ih l (n + 1) t .text hok2 hres
              rw [if_neg (by simp)] at this
              obtain ⟨L, hsl, hrun⟩ := this
              exact Or.inr ⟨l, L, hsl, hrun⟩
        obtain ⟨t, hres, hout, hshape⟩ := hcont
        subst hout
        have hsplitout : splitLines (cur ++ '\n' :: (bl ++ t)) =
            cur :: f :: (mid ++ fenceTok :: splitLines t) := by
          rw [splitLines_line_ok (bl ++ t) hcur, splitLines_append t hnl, hsplit]
          simp [List.append_assoc]
        refine ⟨f :: (mid ++ fenceTok :: splitLines t), hsplitout, fun m => ?_⟩
        rw [runScan_cmd_cons_ok _ _ _ hx, if_pos hf,
          runScan_code_skip M fetch mid f fenceTok (splitLines t) (m + 1) hmid
            fenceTok_isPrefixOf_self]
        rcases hshape with ⟨hsl, hteq⟩ | ⟨r, L, hsl, hrun⟩
        · rw [hsl, hteq]
          rfl
        · rw [hsl]
          simp only [hrun, Except.map]
    | code p =>
      rw [runScan_code_cons] at h
      by_cases hfl : fenceTok.isPrefixOf l
      · rw [if_pos hfl] at h
        cases hres : runScan M fetch (.codeClose p) l ls (n + 1) with
        | error e => rw [hres] at h; exact absurd h (by simp [Except.map])
        | ok t =>
          rw [hres] at h
          simp only [Except.map, Except.ok.injEq] at h
          subst h
          have hcont := ih l (n + 1) t (.codeClose p) hok2 hres
          cases p with
          | false =>
            rw [if_pos (by simp)] at hcont ⊢
            simpa [echoIf] using hcont
          | true =>
            rw [if_neg (by simp)] at hcont ⊢
            obtain ⟨L, hsl, hrun⟩ := hcont
            refine ⟨l :: L, ?_, fun m => ?_⟩
            · show splitLines (cur ++ '\n' :: t) = cur :: l :: L
              rw [splitLines_line_ok t hcur, hsl]
            · rw [runScan_code_cons, if_pos hfl, hrun (m + 1)]
              rfl
      · rw [if_neg hfl] at h
        cases hres : runScan M fetch (.code p) l ls (n + 1) with
        | error e => rw [hres] at h; exact absurd h (by simp [Except.map])
        | ok t =>
          rw [hres] at h
          simp only [Except.map, Except.ok.injEq] at h
          subst h
          have hcont := ih l (n + 1) t (.code p) hok2 hres
          cases p with
          | false =>
            rw [if_pos (by simp)] at hcont ⊢
            simpa [echoIf] using hcont
          | true =>
            rw [if_neg (by simp)] at hcont ⊢
            obtain ⟨L, hsl, hrun⟩ := hcont
            refine ⟨l :: L, ?_, fun m => ?_⟩
            · show splitLines (cur ++ '\n' :: t) = cur :: l :: L
              rw [splitLines_line_ok t hcur, hsl]
            · rw [runScan_code_cons, if_neg hfl, hrun (m + 1)]
              rfl
    | codeClose p =>
      rw [runScan_codeClose_cons] at h
      cases hres : runScan M fetch .text l ls (n + 1) with
      | error e => rw [hres] at h; exact absurd h (by simp [Except.map])
      | ok t =>
        rw [hres] at h
        simp only [Except.map, Except.ok.injEq] at h
        subst h
        have hcont := ih l (n + 1) t .text hok2 hres
        rw [if_neg (by simp)] at hcont
        obtain ⟨L, hsl, hrun⟩ := hcont
        cases p with
        | false =>
          rw [if_pos (by simp)]
          exact Or.inr ⟨l, L, by simpa [echoIf] using hsl, fun m => by
            simpa [echoIf] using hrun m⟩
        | true =>
          rw [if_neg (by simp)]
          refine ⟨l :: L, ?_, fun m => ?_⟩
          · show splitLines (cur ++ '\n' :: t) = cur :: l :: L
            rw [splitLines_line_ok t hcur, hsl]
          · rw [runScan_codeClose_cons, hrun (m + 1)]
            rfl

/-! ### Process-level lemmas -/

theorem process_nil {M : Matcher} {fetch : List Char → Except String (List Char)}
    {input : List Char} (h : splitLines input = []) : process M fetch input = .ok [] := by
  unfold process
  rw [h]

theorem process_of_runScan_ok {M : Matcher} {fetch : List Char → Except String (List Char)}
    {input first out : List Char} {rest : List (List Char)}
    (h : splitLines input = first :: rest)
    (h2 : runScan M fetch .text first rest 1 = .ok out) :
    process M fetch input = .ok out := by
  unfold process
  rw [h]
  simp only [h2]

theorem process_of_runScan_err {M : Matcher} {fetch : List Char → Except String (List Char)}
    {input first : List Char} {rest : List (List Char)} {n : Nat} {msg : String}
    (h : splitLines input = first :: rest)
    (h2 : runScan M fetch .text first rest 1 = .error (n, msg)) :
    process M fetch input = .error (toString n ++ ": " ++ msg) := by
  unfold process
  rw [h]
  simp only [h2]

theorem process_ok_inv {M : Matcher} {fetch : List Char → Except String (List Char)}
    {input out : List Char} (h : process M fetch input = .ok out) :
    (splitLines input = [] ∧ out = []) ∨
      ∃ first rest, splitLines input = first :: rest ∧
        runScan M fetch .text first rest 1 = .ok out := by
  unfold process at h
  split at h
  · next hsl =>
    simp only [Except.ok.injEq] at h
    exact Or.inl ⟨hsl, h.symm⟩
  · next first rest hsl =>
    split at h
    · next o hrun =>
      simp only [Except.ok.injEq] at h
      exact Or.inr ⟨first, rest, hsl, h ▸ hrun⟩
    · next n msg hrun =>
      exact absurd h (by simp)


/-! ### Claim theorems: extractor -/

/-- C3: for every source byte string and every present, non-empty start
token whose compiled pattern matches, when the end token is absent,
`extract` returns exactly the bytes matched by the start pattern's first
match (the slice from the match's start to its end), not the remainder of
the source; and if the start pattern has no match, `extract` fails with
the no-match error. -/
theorem extract_start_only (M : Matcher) (b st : List Char)
    (hlen : 2 < st.length) (hhead : st.head? = some '/') (hlast : st.getLast? = some '/')
    (hcomp : M.compile ((st.drop 1).dropLast) = none) :
    (∀ l0 l1, M.findIndex ((st.drop 1).dropLast) b = some (l0, l1) →
      extract M b (some st) none = .ok ((b.drop l0).take (l1 - l0))) ∧
    (M.findIndex ((st.drop 1).dropLast) b = none →
      extract M b (some st) none = .err (.noMatch st)) := by
  have hne : st ≠ [] := by
    intro he
    rw [he] at hlen
    simp at hlen
  have hshape : ¬(st.length ≤ 2 ∨ st.head? ≠ some '/' ∨ st.getLast? ≠ some '/') := by
    push_neg
    exact ⟨by omega, hhead, hlast⟩
  constructor
  · intro l0 l1 hfind
    unfold extract reMatch
    simp only [hne, hshape, hcomp, hfind, if_true, if_false, ite_true, ite_false,
      not_false_eq_true]
    rw [if_pos hne]
  · intro hfind
    unfold extract reMatch
    simp only [hne, hshape, hcomp, hfind, if_true, if_false, ite_true, ite_false,
      not_false_eq_true]
    rw [if_pos hne]

/-- C3 witness: on the source `hello` with start token `/ell/` under the
literal matcher, the result is exactly the matched text `ell`; with start
token `/zzz/` the result is the no-match error. -/
theorem extract_start_only_witness :
    extract litMatcher "hello".toList (some "/ell/".toList) none = .ok "ell".toList ∧
    extract litMatcher "hello".toList (some "/zzz/".toList) none =
      .err (.noMatch "/zzz/".toList) := by
  constructor
  · have h := (extract_start_only litMatcher "hello".toList "/ell/".toList
      (by decide) (by decide) (by decide) rfl).1 1 4 rfl
    exact h.trans (by decide)
  · exact (extract_start_only litMatcher "hello".toList "/zzz/".toList
      (by decide) (by decide) (by decide) rfl).2 rfl

/-- C4: with a matching start token, if the end token is the literal `$`
the result extends from the beginning of the start match to the end of the
source; otherwise the end token's first match is searched within the bytes
truncated to begin at the start match, and the result ends at the close of
that match, inclusive. -/
theorem extract_start_end (M : Matcher) (b st en : List Char) (l0 l1 : Nat)
    (hlen : 2 < st.length) (hhead : st.head? = some '/') (hlast : st.getLast? = some '/')
    (hcomp : M.compile ((st.drop 1).dropLast) = none)
    (hfind : M.findIndex ((st.drop 1).dropLast) b = some (l0, l1)) :
    (en = ['$'] → extract M b (some st) (some en) = .ok (b.drop l0)) ∧
    (en ≠ ['$'] → 2 < en.length → en.head? = some '/' → en.getLast? = some '/' →
      M.compile ((en.drop 1).dropLast) = none →
      ∀ m0 m1, M.findIndex ((en.drop 1).dropLast) (b.drop l0) = some (m0, m1) →
        extract M b (some st) (some en) = .ok ((b.drop l0).take m1)) := by
  have hne : st ≠ [] := by
    intro he
    rw [he] at hlen
    simp at hlen
  have hshape : ¬(st.length ≤ 2 ∨ st.head? ≠ some '/' ∨ st.getLast? ≠ some '/') := by
    push_neg
    exact ⟨by omega, hhead, hlast⟩
  constructor
  · intro hen
    subst hen
    unfold extract reMatch
    simp only [hne, hshape, hcomp, hfind, not_false_eq_true, if_true, if_false, ite_true,
      ite_false]
    rw [if_pos hne]
    unfold extractEnd
    rw [if_neg (by simp)]
  · intro hen hlen2 hhead2 hlast2 hcomp2 m0 m1 hfind2
    have hshape2 : ¬(en.length ≤ 2 ∨ en.head? ≠ some '/' ∨ en.getLast? ≠ some '/') := by
      push_neg
      exact ⟨by omega, hhead2, hlast2⟩
    unfold extract reMatch
    simp only [hne, hshape, hcomp, hfind, not_false_eq_true, if_true, if_false, ite_true,
      ite_false]
    rw [if_pos hne]
    unfold extractEnd reMatch
    rw [if_pos hen]
    simp only [hshape2, hcomp2, hfind2, not_false_eq_true, if_true, if_false, ite_true,
      ite_false]

/-- C4 witness: on the source `abcdef` with start `/bc/`, end `$` yields
`bcdef` (to end of source); end `/de/` yields `bcde` (through the close of
the end match). -/
theorem extract_start_end_witness :
    extract litMatcher "abcdef".toList (some "/bc/".toList) (some "$".toList) =
      .ok "bcdef".toList ∧
    extract litMatcher "abcdef".toList (some "/bc/".toList) (some "/de/".toList) =
      .ok "bcde".toList := by
  constructor
  · have h := (extract_start_end litMatcher "abcdef".toList "/bc/".toList "$".toList 1 3
      (by decide) (by decide) (by decide) rfl rfl).1 (by decide)
    exact h.trans (by decide)
  · have h := (extract_start_end litMatcher "abcdef".toList "/bc/".toList "/de/".toList 1 3
      (by decide) (by decide) (by decide) rfl rfl).2 (by decide) (by decide) (by decide)
      (by decide) rfl 2 4 rfl
    exact h.trans (by decide)

/-- C9: calling `extract` with a present-but-empty start token and an
absent end token dereferences the nil end pointer: the Go function panics,
modelled as the `nilDeref` result, so it neither returns bytes nor returns
an error. -/
theorem extract_empty_start_nilDeref (M : Matcher) (b : List Char) :
    extract M b (some []) none = .nilDeref ∧
    (∀ r, extract M b (some []) none ≠ .ok r) ∧
    (∀ e, extract M b (some []) none ≠ .err e) := by
  have h : extract M b (some []) none = .nilDeref := rfl
  refine ⟨h, fun r hr => ?_, fun e he => ?_⟩
  · rw [h] at hr
    exact ExtractRes.noConfusion hr
  · rw [h] at he
    exact ExtractRes.noConfusion he

/-! ### Claim theorems: tokenizer and parser -/

/-- C6: evaluation of the `fields` tokenizer on the escaped-slash example
from the repository's own test suite.  The test `multi-line comments`
expects the single token `/\/\*/`, but the implementation closes a slash
group at the first `/` found by `IndexByte`, splitting the text into the
two tokens `/\/` and `\*/`; an unterminated slash group does fail with the
unbalanced-slash error. -/
theorem fields_escaped_slash_eval :
    fields "/\\/\\*/".toList = .ok ["/\\/".toList, "\\*/".toList] ∧
    (∀ t, fields "/\\/\\*/".toList ≠ .ok [t]) ∧
    fields "/abc".toList = .error "unbalanced /" := by
  refine ⟨rfl, fun t h => ?_, rfl⟩
  rw [show fields "/\\/\\*/".toList = .ok ["/\\/".toList, "\\*/".toList] from rfl] at h
  simp at h

/-- C10: the scanner obtains the argument text of a directive line by
splitting the whole line on `#` and taking the second segment, so the
argument text is the part of the line after the marker truncated at the
next `#`; consequently a directive whose parenthesized arguments contain a
`#` (for example a URL with a fragment) misparses even though the full
path would be fetchable. -/
theorem cmd_arg_text_split_hash :
    (∀ suffix : List Char,
      argText (dirTok ++ suffix) = suffix.takeWhile (fun x => x != '#')) ∧
    process noMatcher (oneFetch "http://h/a.go#f".toList "x\n".toList)
        "t\n[embedmd]:# (http://h/a.go#f)\n".toList =
      .error "2: argument list should be in parenthesis" := by
  constructor
  · intro suffix
    unfold argText
    rw [show dirTok ++ suffix = "[embedmd]:".toList ++ '#' :: suffix from rfl]
    rw [goSplit_marker '#' _ suffix (by decide)]
    obtain ⟨t, ht⟩ := goSplit_head '#' suffix
    rw [ht]
    rfl
  · rfl

theorem trimSpace_paren (inner : List Char) :
    trimSpace ('(' :: inner ++ [')']) = '(' :: inner ++ [')'] := by
  unfold trimSpace
  have h1 : List.dropWhile goIsSpace ('(' :: inner ++ [')']) = '(' :: inner ++ [')'] := by
    rw [show ('(' :: inner ++ [')'] : List Char) = '(' :: (inner ++ [')']) from by simp,
      List.dropWhile_cons]
    rw [if_neg (by decide)]
  rw [h1, List.reverse_append, show (([')'] : List Char)).reverse = [')'] from rfl,
    List.singleton_append, List.dropWhile_cons]
  rw [if_neg (by decide)]
  rw [List.reverse_cons, List.reverse_reverse]

theorem parseArgs_paren_cond (inner : List Char) :
    ¬(('(' :: inner ++ [')']).length < 2 ∨ ('(' :: inner ++ [')']).head? ≠ some '(' ∨
      ('(' :: inner ++ [')']).getLast? ≠ some ')') := by
  push_neg
  refine ⟨?_, ?_, ?_⟩
  · simp [List.length_append]
  · simp
  · rw [show ('(' :: inner ++ [')'] : List Char) = ('(' :: inner) ++ ')' :: [] from by simp,
      List.getLast?_append_cons]
    rfl

theorem parseArgs_paren_inner (inner : List Char) :
    ((('(' :: inner ++ [')']).drop 1).dropLast) = inner := by
  rw [show ('(' :: inner ++ [')'] : List Char) = '(' :: (inner ++ [')']) from by simp]
  rw [List.drop_one, List.tail_cons, List.dropLast_concat]

/-- C7 counterexample: on the argument list `(.go)` the parser fails with
the language-required error instead of deriving the language `go` from the
path `.go` whose only dot is its first character. -/
theorem parseArgs_dot_file_counterexample :
    parseArgs "(.go)".toList = .error "language is required when file has no extension" ∧
    ∀ r, parseArgs "(.go)".toList ≠ .ok r := by
  refine ⟨rfl, fun r h => ?_⟩
  rw [show parseArgs "(.go)".toList =
    .error "language is required when file has no extension" from rfl] at h
  exact Except.noConfusion h

/-- C7 (amended): in `parseArgs` the field after the path, when present
and not starting with `/`, becomes the language; otherwise the language is
derived from `filepath.Ext` applied to the path with its first character
removed — the characters after the last dot of the path's final element,
where a dot at the very first position of the path does not count — and
when that derived extension is empty and no explicit language was given,
parsing fails with the language-required error. -/
theorem parseArgs_language (inner file a : List Char) (rest : List (List Char)) :
    (fields inner = .ok (file :: a :: rest) → a.head? ≠ some '/' →
      parseArgs ('(' :: inner ++ [')']) = parseArgsRest file a rest) ∧
    (fields inner = .ok (file :: a :: rest) → a.head? = some '/' →
      filepathExt (file.drop 1) = [] →
      parseArgs ('(' :: inner ++ [')']) =
        .error "language is required when file has no extension") ∧
    (fields inner = .ok (file :: a :: rest) → a.head? = some '/' →
      filepathExt (file.drop 1) ≠ [] →
      parseArgs ('(' :: inner ++ [')']) =
        parseArgsRest file ((filepathExt (file.drop 1)).drop 1) (a :: rest)) ∧
    (fields inner = .ok [file] → filepathExt (file.drop 1) = [] →
      parseArgs ('(' :: inner ++ [')']) =
        .error "language is required when file has no extension") ∧
    (fields inner = .ok [file] → filepathExt (file.drop 1) ≠ [] →
      parseArgs ('(' :: inner ++ [')']) =
        .ok (file, (filepathExt (file.drop 1)).drop 1, none, none)) := by
  refine ⟨?_, ?_, ?_, ?_, ?_⟩
  · intro hf ha
    unfold parseArgs
    rw [trimSpace_paren, if_neg (parseArgs_paren_cond inner), parseArgs_paren_inner, hf]
    simp only []
    rw [if_pos ha]
  · intro hf ha hext
    unfold parseArgs
    rw [trimSpace_paren, if_neg (parseArgs_paren_cond inner), parseArgs_paren_inner, hf]
    simp only [extLang]
    rw [if_neg (by simp [ha]), if_pos hext]
  · intro hf ha hext
    unfold parseArgs
    rw [trimSpace_paren, if_neg (parseArgs_paren_cond inner), parseArgs_paren_inner, hf]
    simp only [extLang]
    rw [if_neg (by simp [ha]), if_neg hext]
  · intro hf hext
    unfold parseArgs
    rw [trimSpace_paren, if_neg (parseArgs_paren_cond inner), parseArgs_paren_inner, hf]
    simp only [extLang]
    rw [if_pos hext]
  · intro hf hext
    unfold parseArgs
    rw [trimSpace_paren, if_neg (parseArgs_paren_cond inner), parseArgs_paren_inner, hf]
    simp only [extLang]
    rw [if_neg hext]
    rfl

/-- C7 witness: `(code.go)` derives language `go` from the extension,
`(test.md markdown)` takes the explicit language `markdown`, and `(test)`
fails with the language-required error. -/
theorem parseArgs_language_witness :
    parseArgs "(code.go)".toList = .ok ("code.go".toList, "go".toList, none, none) ∧
    parseArgs "(test.md markdown)".toList =
      .ok ("test.md".toList, "markdown".toList, none, none) ∧
    parseArgs "(test)".toList =
      .error "language is required when file has no extension" := by
  refine ⟨?_, ?_, ?_⟩
  · exact ((parseArgs_language "code.go".toList "code.go".toList [] []).2.2.2.2
      rfl (by decide)).trans rfl
  · exact ((parseArgs_language "test.md markdown".toList "test.md".toList
      "markdown".toList []).1 rfl (by decide)).trans rfl
  · exact (parseArgs_language "test".toList "test".toList [] []).2.2.2.1 rfl (by decide)

/-! ### Claim theorems: scanner -/

/-- C2 counterexample: on the one-byte document `a` (no trailing newline,
no directives) the scanner's output is `a` followed by a newline, which is
not byte-for-byte equal to the input. -/
theorem process_identity_counterexample :
    process noMatcher noFetch "a".toList = .ok "a\n".toList ∧
    process noMatcher noFetch "a".toList ≠ .ok "a".toList := by
  refine ⟨rfl, fun h => ?_⟩
  rw [show process noMatcher noFetch "a".toList = .ok "a\n".toList from rfl] at h
  simp at h

/-- C2 (amended): for every document containing no directive line on which
processing succeeds, the output is the document's lines each re-terminated
with a single `\n`; in particular the output equals the input byte-for-byte
exactly when the input is already in that normal form (every line
`\n`-terminated with no carriage return dropped by the line splitter). -/
theorem process_no_directive_identity (M : Matcher)
    (fetch : List Char → Except String (List Char)) (input out : List Char)
    (hnd : ∀ l ∈ splitLines input, ¬ dirTok.isPrefixOf l)
    (hok : process M fetch input = .ok out) :
    out = joinNL (splitLines input) ∧
      (joinNL (splitLines input) = input → out = input) := by
  have hmain : out = joinNL (splitLines input) := by
    rcases process_ok_inv hok with ⟨hsl, hout⟩ | ⟨first, rest, hsl, hrun⟩
    · rw [hsl, hout]
      rfl
    · rw [hsl]
      exact runScan_echo_all M fetch rest
        (fun l hl => hnd l (hsl ▸ List.mem_cons_of_mem first hl)) .text (Or.inl rfl)
        first 1 out hrun
  exact ⟨hmain, fun h => hmain.trans h⟩

/-- C2 witness: on the two-line document `hello\nworld\n` with no
directives, the output equals the input. -/
theorem process_no_directive_identity_witness :
    "hello\nworld\n".toList = joinNL (splitLines "hello\nworld\n".toList) ∧
    (joinNL (splitLines "hello\nworld\n".toList) = "hello\nworld\n".toList →
      "hello\nworld\n".toList = "hello\nworld\n".toList) :=
  process_no_directive_identity noMatcher noFetch "hello\nworld\n".toList
    "hello\nworld\n".toList (by decide) rfl

/-- C5: a fenced block entered from the text state (a fence unrelated to
any directive) echoes every interior line verbatim, regardless of the
matcher and the fetch collaborator — in particular a directive-looking
interior line is never executed as a directive (no command is parsed, no
fetch occurs) — and scanning resumes in the text state after the closing
fence. -/
theorem fence_suppresses_directives (M : Matcher)
    (fetch : List Char → Except String (List Char)) (cur fg close : List Char)
    (interior rest2 : List (List Char)) (n : Nat)
    (hf : fenceTok.isPrefixOf fg)
    (hint : ∀ l ∈ interior, ¬ fenceTok.isPrefixOf l)
    (hcl : fenceTok.isPrefixOf close) :
    runScan M fetch .text cur (fg :: (interior ++ close :: rest2)) n =
      Except.map (fun t => joinNL (cur :: fg :: interior) ++ close ++ '\n' :: t)
        (match rest2 with
         | [] => Except.ok []
         | r :: rs => runScan M fetch .text r rs (n + interior.length + 3)) := by
  rw [runScan_text_cons, dispatch_fence hf,
    runScan_code_echo M fetch interior fg close rest2 (n + 1) hint hcl]
  have harith : n + 1 + interior.length + 2 = n + interior.length + 3 := by omega
  rw [harith]
  match rest2 with
  | [] => simp [Except.map, joinNL]
  | r :: rs =>
    cases hres : runScan M fetch .text r rs (n + interior.length + 3) with
    | ok t => simp [hres, Except.map, joinNL]
    | error e => simp [hres, Except.map]

/-- C5 witness: the directive-looking line inside a markdown fence is
echoed verbatim and not executed, even though the fetch collaborator
always fails. -/
theorem fence_suppresses_directives_witness :
    runScan noMatcher noFetch .text "a".toList
        ("```markdown".toList ::
          (["[embedmd]:# (nothing.md)".toList] ++ "```".toList :: ["Yay!".toList])) 1 =
      Except.map
        (fun t => joinNL ("a".toList :: "```markdown".toList ::
          ["[embedmd]:# (nothing.md)".toList]) ++ "```".toList ++ '\n' :: t)
        (runScan noMatcher noFetch .text "Yay!".toList [] 5) :=
  fence_suppresses_directives noMatcher noFetch "a".toList "```markdown".toList
    "```".toList ["[embedmd]:# (nothing.md)".toList] ["Yay!".toList] 1
    (by decide) (by decide) (by decide)

/-- C8: when a fenced block is opened — in echo mode after a plain text
line, or in suppress mode right after a successful directive — and the
input ends before any line starting with the fence token, processing fails
with the unbalanced-code-section error, and the reported message is the
1-based line number at which scanning ended followed by the message,
composed as `<line>: <message>`. -/
theorem process_unbalanced_fence (M : Matcher)
    (fetch : List Char → Except String (List Char)) (input a fg dir bl : List Char)
    (tail : List (List Char))
    (hf : fenceTok.isPrefixOf fg)
    (htail : ∀ l ∈ tail, ¬ fenceTok.isPrefixOf l) :
    (splitLines input = a :: fg :: tail →
      process M fetch input =
        .error (toString (2 + tail.length) ++ ": unbalanced code section")) ∧
    (dirTok.isPrefixOf dir → extractFromFile M fetch (argText dir) = .ok bl →
      splitLines input = a :: dir :: fg :: tail →
      process M fetch input =
        .error (toString (3 + tail.length) ++ ": unbalanced code section")) := by
  constructor
  · intro hsl
    have hrun : runScan M fetch .text a (fg :: tail) 1 =
        .error (2 + tail.length, "unbalanced code section") := by
      rw [runScan_text_cons, dispatch_fence hf,
        runScan_code_unbalanced M fetch tail true fg 2 htail]
      rfl
    exact (process_of_runScan_err hsl hrun).trans (by rw [String.append_assoc]; rfl)
  · intro hdir hbl hsl
    have hrun : runScan M fetch .text a (dir :: fg :: tail) 1 =
        .error (3 + tail.length, "unbalanced code section") := by
      rw [runScan_text_cons, dispatch_dir hdir,
        runScan_cmd_cons_ok fg tail 2 hbl, if_pos hf,
        runScan_code_unbalanced M fetch tail false fg 3 htail]
      rfl
    exact (process_of_runScan_err hsl hrun).trans (by rw [String.append_assoc]; rfl)

/-- C8 witness: `a\n```\nx\n` fails with `3: unbalanced code section`, and
a document whose directive succeeds but whose following fence is never
closed fails with `4: unbalanced code section`. -/
theorem process_unbalanced_fence_witness :
    process noMatcher noFetch "a\n```\nx\n".toList =
      .error "3: unbalanced code section" ∧
    process noMatcher (oneFetch "f.go".toList "y\n".toList)
        "a\n[embedmd]:# (f.go)\n```\nx\n".toList =
      .error "4: unbalanced code section" := by
  constructor
  · exact (process_unbalanced_fence noMatcher noFetch "a\n```\nx\n".toList
      "a".toList "```".toList [] [] ["x".toList] (by decide) (by decide)).1 (by decide)
  · exact (process_unbalanced_fence noMatcher (oneFetch "f.go".toList "y\n".toList)
      "a\n[embedmd]:# (f.go)\n```\nx\n".toList "a".toList "```".toList
      "[embedmd]:# (f.go)".toList "```go\ny\n```\n".toList ["x".toList]
      (by decide) (by decide)).2 (by decide) rfl (by decide)

/-- C1 counterexample: the document `a\r\r\n` has no directives (so every
directive trivially names a fetchable source), yet the second run's output
differs from the first run's: the line splitter drops one carriage return
per pass, so the first run yields `a\r\n` and the second run on that
output yields `a\n`. -/
theorem scanner_idempotent_counterexample :
    process noMatcher noFetch "a\r\r\n".toList = .ok "a\r\n".toList ∧
    process noMatcher noFetch "a\r\n".toList = .ok "a\n".toList ∧
    ("a\n".toList : List Char) ≠ "a\r\n".toList :=
  ⟨rfl, rfl, by decide⟩

/-- Result values of `extract` under the never-matching matcher: any
successful extraction returns the whole source. -/
theorem extract_noMatcher_ok {b eb : List Char} {ost oen : Option (List Char)}
    (h : extract noMatcher b ost oen = .ok eb) : eb = b := by
  have hrm : ∀ tok, ∃ e, reMatch noMatcher b tok = .error e := by
    intro tok
    unfold reMatch
    split
    · exact ⟨_, rfl⟩
    · exact ⟨_, rfl⟩
  rcases ost with _ | st <;> rcases oen with _ | en <;> simp only [extract] at h
  · rw [ExtractRes.ok.injEq] at h
    exact h.symm
  · exact ExtractRes.noConfusion h
  · by_cases hst : st ≠ []
    · rw [if_pos hst] at h
      obtain ⟨e, he⟩ := hrm st
      rw [he] at h
      exact ExtractRes.noConfusion h
    · rw [if_neg hst] at h
      exact ExtractRes.noConfusion h
  · by_cases hst : st ≠ []
    · rw [if_pos hst] at h
      obtain ⟨e, he⟩ := hrm st
      rw [he] at h
      exact ExtractRes.noConfusion h
    · rw [if_neg hst] at h
      unfold extractEnd at h
      by_cases hen : en ≠ ['$']
      · rw [if_pos hen] at h
        obtain ⟨e, he⟩ := hrm en
        rw [he] at h
        exact ExtractRes.noConfusion h
      · rw [if_neg hen] at h
        rw [ExtractRes.ok.injEq] at h
        exact h.symm

theorem blockOK_render {lang : List Char} (hl : '\n' ∉ lang) :
    BlockOK (renderBlock lang "x\n".toList) := by
  have hshape : renderBlock lang "x\n".toList =
      (fenceTok ++ lang) ++ '\n' :: ("x\n".toList ++ (fenceTok ++ ['\n'])) := by
    unfold renderBlock
    simp
  have hnl2 : '\n' ∉ fenceTok ++ lang := by
    intro hm
    rcases List.mem_append.mp hm with hm | hm
    · exact absurd hm (by decide)
    · exact hl hm
  constructor
  · rw [hshape, show (fenceTok ++ lang) ++ '\n' :: ("x\n".toList ++ (fenceTok ++ ['\n'])) =
      ((fenceTok ++ lang) ++ '\n' :: ("x\n".toList ++ fenceTok)) ++ ['\n'] from by simp]
    exact List.getLast?_concat _
  · refine ⟨dropCR (fenceTok ++ lang), ["x".toList], ?_, ?_, ?_⟩
    · rw [hshape, splitLines_line ("x\n".toList ++ (fenceTok ++ ['\n'])) hnl2]
      rw [show splitLines ("x\n".toList ++ (fenceTok ++ ['\n'])) =
        ["x".toList, fenceTok] from rfl]
      simp
    · by_cases hcr : (fenceTok ++ lang).getLast? = some '\r'
      · unfold dropCR
        rw [if_pos hcr]
        have hlne : lang ≠ [] := by
          intro he
          rw [he] at hcr
          exact absurd (by simpa using hcr) (by decide)
        obtain ⟨c, cs, hcc⟩ := List.exists_cons_of_ne_nil hlne
        rw [hcc, List.dropLast_append_cons]
        rw [List.isPrefixOf_iff_prefix]
        exact List.prefix_append _ _
      · rw [dropCR_eq_self hcr, List.isPrefixOf_iff_prefix]
        exact List.prefix_append _ _
    · intro l hl2
      rw [List.mem_singleton] at hl2
      subst hl2
      decide

/-- BlockOK for every successful block of the single-file fetch used by
the idempotence witness. -/
theorem extractFromFile_oneFetch_blockOK :
    ∀ a bl, '\n' ∉ a →
      extractFromFile noMatcher (oneFetch "f.go".toList "x\n".toList) a = .ok bl →
      BlockOK bl := by
  intro a bl hn h
  unfold extractFromFile at h
  split at h
  · exact absurd h (by simp)
  · next file lang ost oen hp =>
    split at h
    · exact absurd h (by simp)
    · next b hfetch =>
      have hb : b = "x\n".toList := by
        unfold oneFetch at hfetch
        split at hfetch
        · simpa using hfetch.symm
        · exact absurd hfetch (by simp)
      subst hb
      split at h
      · exact absurd h (by simp)
      · exact absurd h (by simp)
      · next eb hex =>
        simp only [Except.ok.injEq] at h
        subst h
        have heb : eb = "x\n".toList := extract_noMatcher_ok hex
        subst heb
        have hlang : '\n' ∉ lang := fun hm => hn (parseArgs_lang_sub hp '\n' hm)
        have hens : ensureNL "x\n".toList = "x\n".toList := rfl
        rw [hens]
        exact blockOK_render hlang

/-- C1 (amended): fix the matcher and the fetch collaborator, and let the
first run of the scanner succeed on a document whose lines do not end in a
carriage return, with every successfully rendered block well formed (the
fetched content introduces no line starting with a code fence).  Then
running the scanner a second time on the first run's output reproduces
that output exactly: the freshly written fenced block is recognized and
swapped for an identical block, and the directive line is never mutated. -/
theorem scanner_idempotent (M : Matcher) (fetch : List Char → Except String (List Char))
    (input out1 : List Char)
    (hok : process M fetch input = .ok out1)
    (hcr : ∀ l ∈ splitLines input, l.getLast? ≠ some '\r')
    (hblk : ∀ a bl, '\n' ∉ a → extractFromFile M fetch a = .ok bl → BlockOK bl) :
    process M fetch out1 = .ok out1 := by
  rcases process_ok_inv hok with ⟨hsl, hout⟩ | ⟨first, rest, hsl, hrun⟩
  · subst hout
    exact process_nil rfl
  · have hlineok : ∀ l ∈ first :: rest, lineOK l := by
      intro l hl
      rw [← hsl] at hl
      exact ⟨splitLines_no_newline l hl, hcr l hl⟩
    have hsim := sim M fetch hblk rest first 1 out1 .text hlineok hrun
    rw [if_neg (by simp)] at hsim
    obtain ⟨L, hslo, hrun2⟩ := hsim
    exact process_of_runScan_ok hslo (hrun2 1)

/-- C1 witness: on a document with one directive for the file `f.go`
containing `x\n`, the first run's output (directive line plus fresh
fenced block) is a fixed point of the scanner. -/
theorem scanner_idempotent_witness :
    process noMatcher (oneFetch "f.go".toList "x\n".toList)
        "t\n[embedmd]:# (f.go)\n```go\nx\n```\n".toList =
      .ok "t\n[embedmd]:# (f.go)\n```go\nx\n```\n".toList :=
  scanner_idempotent noMatcher (oneFetch "f.go".toList "x\n".toList)
    "t\n[embedmd]:# (f.go)\n".toList
    "t\n[embedmd]:# (f.go)\n```go\nx\n```\n".toList
    rfl (by decide) extractFromFile_oneFetch_blockOK

end EmbedMD
